import Mathlib

/-!
Shallow embedding of `Tribler/Core/DownloadState.py`: the `DownloadState`
snapshot constructor (status/progress derivation and the piece-range
projection of the completion bitmap) and its read-only accessors.

Python floats are modelled as exact rationals (`ℚ`); the constructor is
modelled as an `Option`-returning function, `none` meaning that construction
raises an exception (`IndexError` from an out-of-range list access).
Optional (`None`-able) Python values are modelled with `Option`.
-/

set_option autoImplicit false

/-- The `DLSTATUS_*` enumeration imported from `Tribler.Core.simpledefs`. -/
inductive DLStatus where
  | ALLOCATING_DISKSPACE
  | WAITING4HASHCHECK
  | HASHCHECKING
  | DOWNLOADING
  | SEEDING
  | STOPPED
  | STOPPED_ON_ERROR
  | REPEXING
  | QUEUED
  deriving DecidableEq, Repr

/-- One record of the `spew` peer list: only the `completed` fraction is
read by `get_num_seeds_peers` (1.0 marks a seed). -/
structure PeerInfo where
  completed : ℚ
  deriving DecidableEq, Repr

/-- The engine statistics object `stats['stats']`: the per-piece completion
bitmap `have` (renamed `haveBits`, `have` being a Lean keyword) and the
seed/peer counters used by `has_active_connections`. -/
structure StatsObj where
  haveBits : List Bool
  numSeeds : Nat
  numPeers : Nat
  deriving DecidableEq, Repr

/-- The BT-engine statistics dict `stats` passed to the constructor. -/
structure Stats where
  frac : ℚ
  up : ℚ
  down : ℚ
  statsobj : StatsObj
  spew : Option (List PeerInfo)
  vod_prebuf_frac : ℚ
  vod_playable : Bool
  vod_playable_after : ℚ
  deriving DecidableEq, Repr

/-- The immutable snapshot built by `DownloadState.__init__`. The `download`
back-reference is opaque and modelled as a bare identifier. `status` is an
`Option` because the Python constructor can store the caller's `status`
argument even when it is `None`. `haveslice` is `[]` in the branches where
the Python attribute is never assigned (those branches set `stats = None`,
and `get_pieces_complete` never reads `haveslice` there). -/
structure DownloadState where
  download : Nat
  filepieceranges : Option (List (Nat × Nat))
  logmsgs : Option (List (ℚ × String))
  error : Option String
  progress : ℚ
  status : Option DLStatus
  stats : Option Stats
  haveslice : List Bool
  deriving DecidableEq, Repr

/-- Python `range(t, tl)`: the list `[t, t+1, ..., tl-1]`, empty when
`tl ≤ t`. -/
def pyRange (t tl : Nat) : List Nat :=
  (List.range (tl - t)).map (fun i => t + i)

/-- The `totalpieces` accumulator: `sum of (tl - t)` over the ranges, in ℤ
because Python subtraction of a reversed range is negative. -/
def totalPieces (ranges : List (Nat × Nat)) : Int :=
  (ranges.map (fun r => (r.2 : Int) - (r.1 : Int))).sum

/-- The inner loop `for piece in range(t, tl): haveslice[index] = statsobj.have[piece]; ...`.
Each step reads `hv[p]` (raising `IndexError`, i.e. `none`, when `p` is out
of range), writes it at `idx` into the preallocated `hs` (raising when `idx`
is out of range, as Python list assignment does), updates the running
conjunction `ha` and increments `idx`. -/
def copyPieces (hv : List Bool) (pieces : List Nat) (hs : List Bool) (ha : Bool)
    (idx : Nat) : Option (List Bool × Bool × Nat) :=
  match pieces with
  | [] => some (hs, ha, idx)
  | p :: rest =>
      match hv[p]? with
      | none => none
      | some v =>
          if idx < hs.length then
            copyPieces hv rest (hs.set idx v) (ha && v) (idx + 1)
          else
            none

/-- The outer loop `for t, tl, f in self.filepieceranges`: the file member
`f` of each triple is never read, so ranges are modelled as pairs. -/
def copyRanges (hv : List Bool) (rs : List (Nat × Nat)) (hs : List Bool) (ha : Bool)
    (idx : Nat) : Option (List Bool × Bool × Nat) :=
  match rs with
  | [] => some (hs, ha, idx)
  | r :: rest =>
      match copyPieces hv (pyRange r.1 r.2) hs ha idx with
      | none => none
      | some (hs1, ha1, idx1) => copyRanges hv rest hs1 ha1 idx1

/-- The whole projection block of `__init__` for a present range list:
allocate `haveslice = [False] * totalpieces` (empty when `totalpieces` is
negative, as in Python), run the copy loop, and return the filled slice
together with the `haveall` flag. -/
def projectHave (hv : List Bool) (rs : List (Nat × Nat)) : Option (List Bool × Bool) :=
  match copyRanges hv rs (List.replicate (totalPieces rs).toNat false) true 0 with
  | none => none
  | some (hs, ha, _) => some (hs, ha)

/-- The values the copy loop reads for one range: `hv[p]` for `p` in
`range(t, tl)`. -/
def pieceVals (hv : List Bool) (t tl : Nat) : List Bool :=
  (pyRange t tl).map (fun p => hv.getD p false)

/-- Concatenation, in range order, of the values read for each range. -/
def flatVals (hv : List Bool) (rs : List (Nat × Nat)) : List Bool :=
  (rs.map (fun r => pieceVals hv r.1 r.2)).flatten

/-- `DownloadState.__init__`: the four-way branch on `stats` / `error` /
`status`, followed (in the pure-statistics branch) by the bitmap projection
and the `haveall` upgrade to SEEDING. `none` models a raised exception. -/
def mkDownloadState (download : Nat) (status : Option DLStatus) (error : Option String)
    (progress : ℚ) (stats : Option Stats) (filepieceranges : Option (List (Nat × Nat)))
    (logmsgs : Option (List (ℚ × String))) : Option DownloadState :=
  match stats with
  | none =>
      some { download, filepieceranges, logmsgs, error, progress,
             status := if error.isSome then some DLStatus.STOPPED_ON_ERROR else status,
             stats := none, haveslice := [] }
  | some st =>
      if error.isSome then
        some { download, filepieceranges, logmsgs, error, progress := 0,
               status := some DLStatus.STOPPED_ON_ERROR, stats := none, haveslice := [] }
      else
        match status with
        | some s =>
            some { download, filepieceranges, logmsgs, error := none,
                   status := some s,
                   progress := if s = DLStatus.WAITING4HASHCHECK then 0 else st.frac,
                   stats := none, haveslice := [] }
        | none =>
            let baseStatus : DLStatus :=
              if st.frac = 1 then DLStatus.SEEDING else DLStatus.DOWNLOADING
            match filepieceranges with
            | none =>
                some { download, filepieceranges, logmsgs, error := none,
                       progress := st.frac, status := some baseStatus,
                       stats := some st, haveslice := st.statsobj.haveBits }
            | some rs =>
                match projectHave st.statsobj.haveBits rs with
                | none => none
                | some (hs, ha) =>
                    if ha then
                      some { download, filepieceranges, logmsgs, error := none,
                             progress := 1, status := some DLStatus.SEEDING,
                             stats := some st, haveslice := hs }
                    else
                      some { download, filepieceranges, logmsgs, error := none,
                             progress := st.frac, status := some baseStatus,
                             stats := some st, haveslice := hs }

/-- `get_progress`. -/
def get_progress (ds : DownloadState) : ℚ := ds.progress

/-- `get_status`. -/
def get_status (ds : DownloadState) : Option DLStatus := ds.status

/-- `get_error`. -/
def get_error (ds : DownloadState) : Option String := ds.error

/-- `get_current_speed`; `direct = true` stands for `UPLOAD`. -/
def get_current_speed (ds : DownloadState) (direct : Bool) : ℚ :=
  match ds.stats with
  | none => 0
  | some st => if direct then st.up / 1024 else st.down / 1024

/-- `has_active_connections`. -/
def has_active_connections (ds : DownloadState) : Bool :=
  match ds.stats with
  | none => false
  | some st => decide (0 < st.statsobj.numSeeds + st.statsobj.numPeers)

/-- `get_num_seeds_peers`: `none` models the Python `(None, None)` result. -/
def get_num_seeds_peers (ds : DownloadState) : Option (Nat × Nat) :=
  match ds.stats with
  | none => none
  | some st =>
      match st.spew with
      | none => none
      | some spew =>
          let total := spew.length
          let seeds := (spew.filter (fun i => decide (i.completed = 1))).length
          some (seeds, total - seeds)

/-- `get_pieces_complete`. -/
def get_pieces_complete (ds : DownloadState) : List Bool :=
  match ds.stats with
  | none => []
  | some _ => ds.haveslice

/-- `get_vod_prebuffering_progress`. -/
def get_vod_prebuffering_progress (ds : DownloadState) : ℚ :=
  match ds.stats with
  | none => 0
  | some st => st.vod_prebuf_frac

/-- `get_vod_playable`. -/
def get_vod_playable (ds : DownloadState) : Bool :=
  match ds.stats with
  | none => false
  | some st => st.vod_playable

/-- `get_vod_playable_after`: `float(2 ** 31)` when statistics are absent. -/
def get_vod_playable_after (ds : DownloadState) : ℚ :=
  match ds.stats with
  | none => 2 ^ 31
  | some st => st.vod_playable_after

/-- `get_log_messages`. -/
def get_log_messages (ds : DownloadState) : List (ℚ × String) :=
  match ds.logmsgs with
  | none => []
  | some l => l

/-! ### Helper lemmas about the projection loops -/

theorem mem_pyRange {p t tl : Nat} : p ∈ pyRange t tl ↔ t ≤ p ∧ p < tl := by
  simp only [pyRange, List.mem_map, List.mem_range]
  constructor
  · rintro ⟨i, hi, rfl⟩; omega
  · rintro ⟨h1, h2⟩; exact ⟨p - t, by omega, by omega⟩

theorem pieceVals_length (hv : List Bool) (t tl : Nat) :
    (pieceVals hv t tl).length = tl - t := by
  simp [pieceVals, pyRange]

theorem flatVals_nil (hv : List Bool) : flatVals hv [] = [] := by
  simp [flatVals]

theorem flatVals_cons (hv : List Bool) (r : Nat × Nat) (rest : List (Nat × Nat)) :
    flatVals hv (r :: rest) = pieceVals hv r.1 r.2 ++ flatVals hv rest := by
  simp [flatVals]

theorem flatVals_length (hv : List Bool) (rs : List (Nat × Nat)) :
    (flatVals hv rs).length = (rs.map (fun r => r.2 - r.1)).sum := by
  induction rs with
  | nil => simp [flatVals_nil]
  | cons r rest ih => simp [flatVals_cons, pieceVals_length, ih]

theorem totalPieces_le (rs : List (Nat × Nat)) :
    totalPieces rs ≤ (((rs.map (fun r => r.2 - r.1)).sum : Nat) : Int) := by
  induction rs with
  | nil => simp [totalPieces]
  | cons r rest ih =>
      simp only [totalPieces, List.map_cons, List.sum_cons] at ih ⊢
      push_cast at ih ⊢
      omega

theorem totalPieces_eq_of_wf : ∀ (rs : List (Nat × Nat)), (∀ r ∈ rs, r.1 ≤ r.2) →
    totalPieces rs = (((rs.map (fun r => r.2 - r.1)).sum : Nat) : Int)
  | [], _ => by simp [totalPieces]
  | r :: rest, hwf => by
      have h1 := hwf r (List.mem_cons_self _ _)
      have h2 := totalPieces_eq_of_wf rest (fun r' hr' => hwf r' (List.mem_cons_of_mem _ hr'))
      simp only [totalPieces, List.map_cons, List.sum_cons] at h2 ⊢
      push_cast at h2 ⊢
      omega

theorem take_set_succ : ∀ (l : List Bool) (i : Nat) (a : Bool), i < l.length →
    (l.set i a).take (i + 1) = l.take i ++ [a]
  | [], _, _, h => absurd h (by simp)
  | _ :: _, 0, _, _ => rfl
  | b :: l, i + 1, a, h =>
      congrArg (b :: ·) (take_set_succ l i a (Nat.lt_of_succ_lt_succ h))

theorem drop_set_of_lt : ∀ (l : List Bool) (i j : Nat) (a : Bool), i < j →
    (l.set i a).drop j = l.drop j
  | [], _, _, _, _ => rfl
  | _ :: _, _, 0, _, h => absurd h (Nat.not_lt_zero _)
  | _ :: _, 0, _ + 1, _, _ => rfl
  | _ :: l, i + 1, j + 1, a, h => drop_set_of_lt l i j a (Nat.lt_of_succ_lt_succ h)

theorem take_append_exact (A B : List Bool) (n : Nat) (h : A.length = n) :
    (A ++ B).take n = A := by
  subst h; exact List.take_left A B

theorem drop_append_exact (A B : List Bool) (n k : Nat) (h : A.length = n) :
    (A ++ B).drop (n + k) = B.drop k := by
  subst h; simp [List.drop_append]

/-- Soundness of the inner copy loop: a successful run advances the index by
the number of pieces, stays inside the preallocated slice, overwrites
exactly the segment `[idx, idx + pieces.length)` with the values read from
the bitmap, conjoins those values into the running flag, and certifies that
every visited piece index was inside the bitmap. -/
theorem copyPieces_sound : ∀ (pieces : List Nat) (hv hs : List Bool) (ha : Bool)
    (idx : Nat) (hs' : List Bool) (ha' : Bool) (idx' : Nat),
    idx ≤ hs.length →
    copyPieces hv pieces hs ha idx = some (hs', ha', idx') →
    idx' = idx + pieces.length ∧ idx' ≤ hs.length ∧ hs'.length = hs.length ∧
    hs' = hs.take idx ++ pieces.map (fun p => hv.getD p false) ++ hs.drop (idx + pieces.length) ∧
    ha' = (ha && (pieces.map (fun p => hv.getD p false)).all id) ∧
    ∀ p ∈ pieces, p < hv.length
  | [], hv, hs, ha, idx, hs', ha', idx', hidx, h => by
      simp only [copyPieces, Option.some.injEq, Prod.mk.injEq] at h
      obtain ⟨h1, h2, h3⟩ := h
      subst h1; subst h2; subst h3
      refine ⟨by simp, by simpa using hidx, rfl, by simp, by simp, by simp⟩
  | p :: rest, hv, hs, ha, idx, hs', ha', idx', hidx, h => by
      simp only [copyPieces] at h
      split at h
      · exact absurd h (by simp)
      · rename_i v hq
        split at h
        · rename_i hlt
          obtain ⟨e1, e2, e3, e4, e5, e6⟩ :=
            copyPieces_sound rest hv (hs.set idx v) (ha && v) (idx + 1) hs' ha' idx'
              (by rw [List.length_set]; omega) h
          have hp : p < hv.length := by
            by_contra hc
            rw [List.getElem?_eq_none (by omega)] at hq
            exact Option.noConfusion hq
          have hvv : hv.getD p false = v := by
            rw [List.getElem?_eq_getElem hp] at hq
            rw [List.getD_eq_getElem hv false hp, Option.some.inj hq]
          rw [List.length_set] at e2 e3
          rw [take_set_succ hs idx v hlt, drop_set_of_lt hs idx _ v (by omega)] at e4
          refine ⟨by simp; omega, e2, e3, ?_, ?_, ?_⟩
          · rw [e4]
            simp only [List.map_cons, hvv, List.append_assoc, List.singleton_append,
              List.cons_append, List.length_cons]
            have harith : idx + 1 + rest.length = idx + (rest.length + 1) := by omega
            rw [harith]
            simp
          · rw [e5]
            simp [hq, hvv, Bool.and_assoc]
          · intro q hq'
            rcases List.mem_cons.mp hq' with rfl | hmem
            · exact hp
            · exact e6 q hmem
        · exact absurd h (by simp)

/-- Completeness of the inner copy loop: it succeeds whenever the segment to
write fits in the preallocated slice and every piece index is inside the
bitmap. -/
theorem copyPieces_isSome : ∀ (pieces : List Nat) (hv hs : List Bool) (ha : Bool) (idx : Nat),
    idx + pieces.length ≤ hs.length → (∀ p ∈ pieces, p < hv.length) →
    (copyPieces hv pieces hs ha idx).isSome
  | [], hv, hs, ha, idx, _, _ => by simp [copyPieces]
  | p :: rest, hv, hs, ha, idx, hlen, hin => by
      have hp : p < hv.length := hin p (List.mem_cons_self _ _)
      have hlt : idx < hs.length := by simp at hlen; omega
      simp only [copyPieces, List.getElem?_eq_getElem hp]
      rw [if_pos hlt]
      exact copyPieces_isSome rest hv (hs.set idx hv[p]) (ha && hv[p]) (idx + 1)
        (by rw [List.length_set]; simp at hlen; omega)
        (fun q hq => hin q (List.mem_cons_of_mem _ hq))

/-- Soundness of the outer range loop: a successful run writes exactly the
concatenation `flatVals` of the per-range values, conjoins them all, and
certifies that every nonempty range ends inside the bitmap. -/
theorem copyRanges_sound : ∀ (rs : List (Nat × Nat)) (hv hs : List Bool) (ha : Bool)
    (idx : Nat) (hs' : List Bool) (ha' : Bool) (idx' : Nat),
    idx ≤ hs.length →
    copyRanges hv rs hs ha idx = some (hs', ha', idx') →
    idx' = idx + (flatVals hv rs).length ∧ idx' ≤ hs.length ∧ hs'.length = hs.length ∧
    hs' = hs.take idx ++ flatVals hv rs ++ hs.drop (idx + (flatVals hv rs).length) ∧
    ha' = (ha && (flatVals hv rs).all id) ∧
    ∀ r ∈ rs, r.1 < r.2 → r.2 ≤ hv.length
  | [], hv, hs, ha, idx, hs', ha', idx', hidx, h => by
      simp only [copyRanges, Option.some.injEq, Prod.mk.injEq] at h
      obtain ⟨h1, h2, h3⟩ := h
      subst h1; subst h2; subst h3
      refine ⟨by simp [flatVals_nil], by simpa using hidx, rfl, by simp [flatVals_nil],
        by simp [flatVals_nil], by simp⟩
  | r :: rest, hv, hs, ha, idx, hs', ha', idx', hidx, h => by
      simp only [copyRanges] at h
      split at h
      · exact absurd h (by simp)
      · rename_i out hs1 ha1 idx1 hcp
        obtain ⟨e1, e2, e3, e4, e5, e6⟩ :=
          copyPieces_sound (pyRange r.1 r.2) hv hs ha idx hs1 ha1 idx1 hidx hcp
        obtain ⟨f1, f2, f3, f4, f5, f6⟩ :=
          copyRanges_sound rest hv hs1 ha1 idx1 hs' ha' idx' (by omega) h
        have hpv : (pyRange r.1 r.2).map (fun p => hv.getD p false) = pieceVals hv r.1 r.2 := rfl
        rw [hpv] at e4 e5
        have hpl : (pyRange r.1 r.2).length = r.2 - r.1 := by
          simp [pyRange]
        have hlen1 : (hs.take idx).length = idx := by
          simp [List.length_take]; omega
        have hlenA : (hs.take idx ++ pieceVals hv r.1 r.2).length = idx1 := by
          simp [hlen1, pieceVals_length]
          omega
        have hl : (flatVals hv (r :: rest)).length =
            (pyRange r.1 r.2).length + (flatVals hv rest).length := by
          rw [flatVals_cons]
          simp [pieceVals_length, pyRange]
        constructor
        · omega
        refine ⟨?_, ?_, ?_, ?_, ?_⟩
        · rw [e3] at f2; exact f2
        · rw [f3, e3]
        · rw [f4, e4]
          have ht : ((hs.take idx ++ pieceVals hv r.1 r.2 ++
              hs.drop (idx + (pyRange r.1 r.2).length)).take idx1)
              = hs.take idx ++ pieceVals hv r.1 r.2 :=
            take_append_exact _ _ _ hlenA
          have hd : ((hs.take idx ++ pieceVals hv r.1 r.2 ++
              hs.drop (idx + (pyRange r.1 r.2).length)).drop (idx1 + (flatVals hv rest).length))
              = hs.drop (idx + (flatVals hv (r :: rest)).length) := by
            rw [drop_append_exact _ _ idx1 (flatVals hv rest).length hlenA]
            rw [List.drop_drop]
            congr 1
            omega
          rw [ht, hd, flatVals_cons]
          simp [List.append_assoc]
        · rw [f5, e5, flatVals_cons]
          simp [Bool.and_assoc]
        · intro r' hr'
          rcases List.mem_cons.mp hr' with rfl | hmem
          · intro hlt
            have hm : r'.2 - 1 ∈ pyRange r'.1 r'.2 := mem_pyRange.mpr ⟨by omega, by omega⟩
            have := e6 _ hm
            omega
          · exact f6 r' hmem

/-- Completeness of the outer range loop. -/
theorem copyRanges_isSome : ∀ (rs : List (Nat × Nat)) (hv hs : List Bool) (ha : Bool) (idx : Nat),
    idx ≤ hs.length →
    idx + (flatVals hv rs).length ≤ hs.length →
    (∀ r ∈ rs, ∀ p ∈ pyRange r.1 r.2, p < hv.length) →
    (copyRanges hv rs hs ha idx).isSome
  | [], hv, hs, ha, idx, _, _, _ => by simp [copyRanges]
  | r :: rest, hv, hs, ha, idx, hidx, hlen, hin => by
      have hfl : (flatVals hv (r :: rest)).length =
          (pyRange r.1 r.2).length + (flatVals hv rest).length := by
        rw [flatVals_cons]
        simp [pieceVals_length, pyRange]
      have h1 : (copyPieces hv (pyRange r.1 r.2) hs ha idx).isSome :=
        copyPieces_isSome (pyRange r.1 r.2) hv hs ha idx (by omega)
          (hin r (List.mem_cons_self _ _))
      obtain ⟨out1, hcp⟩ := Option.isSome_iff_exists.mp h1
      obtain ⟨hs1, ha1, idx1⟩ := out1
      obtain ⟨e1, e2, e3, e4, e5, e6⟩ :=
        copyPieces_sound (pyRange r.1 r.2) hv hs ha idx hs1 ha1 idx1 hidx hcp
      simp only [copyRanges]
      rw [hcp]
      exact copyRanges_isSome rest hv hs1 ha1 idx1 (by omega) (by omega)
        (fun r' hr' => hin r' (List.mem_cons_of_mem _ hr'))

/-- A successful projection returns exactly the concatenated per-range
values and the conjunction of all of them, and certifies that every
nonempty range ends inside the bitmap. -/
theorem projectHave_sound (hv : List Bool) (rs : List (Nat × Nat))
    (hs : List Bool) (ha : Bool) (h : projectHave hv rs = some (hs, ha)) :
    hs = flatVals hv rs ∧ ha = (flatVals hv rs).all id ∧
    ∀ r ∈ rs, r.1 < r.2 → r.2 ≤ hv.length := by
  unfold projectHave at h
  split at h
  · exact absurd h (by simp)
  · rename_i out hs1 ha1 idx1 hcr
    obtain ⟨e1, e2, e3, e4, e5, e6⟩ :=
      copyRanges_sound rs hv _ true 0 hs1 ha1 idx1 (by simp) hcr
    have hle : (totalPieces rs).toNat ≤ (flatVals hv rs).length := by
      rw [flatVals_length]
      have := totalPieces_le rs
      omega
    have hdrop : (List.replicate (totalPieces rs).toNat false).drop
        (0 + (flatVals hv rs).length) = [] := by
      apply List.drop_eq_nil_of_le
      simpa using hle
    rw [hdrop] at e4
    simp only [List.take_zero, List.nil_append, List.append_nil, Bool.true_and] at e4 e5
    simp only [Option.some.injEq, Prod.mk.injEq] at h
    obtain ⟨h1, h2⟩ := h
    exact ⟨h1 ▸ e4, h2 ▸ e5, e6⟩

/-- The projection succeeds on well-formed, in-bounds ranges, and returns
the concatenated slices together with their conjunction. -/
theorem projectHave_complete (hv : List Bool) (rs : List (Nat × Nat))
    (hwf : ∀ r ∈ rs, r.1 ≤ r.2) (hin : ∀ r ∈ rs, r.2 ≤ hv.length) :
    projectHave hv rs = some (flatVals hv rs, (flatVals hv rs).all id) := by
  have hlen : (List.replicate (totalPieces rs).toNat false).length =
      (flatVals hv rs).length := by
    rw [List.length_replicate, flatVals_length]
    have := totalPieces_eq_of_wf rs hwf
    omega
  have hsome := copyRanges_isSome rs hv (List.replicate (totalPieces rs).toNat false) true 0
    (by omega) (by omega)
    (fun r hr p hp => by
      have hm := mem_pyRange.mp hp
      have := hin r hr
      omega)
  obtain ⟨out, hcr⟩ := Option.isSome_iff_exists.mp hsome
  obtain ⟨hs1, ha1, idx1⟩ := out
  obtain ⟨e1, e2, e3, e4, e5, e6⟩ :=
    copyRanges_sound rs hv _ true 0 hs1 ha1 idx1 (by simp) hcr
  have hdrop : (List.replicate (totalPieces rs).toNat false).drop
      (0 + (flatVals hv rs).length) = [] := by
    apply List.drop_eq_nil_of_le
    rw [hlen]; omega
  rw [hdrop] at e4
  simp only [List.take_zero, List.nil_append, List.append_nil, Bool.true_and] at e4 e5
  unfold projectHave
  rw [hcr, e4, e5]

/-- Each per-range value list is exactly the Python slice `hv[t:tl]`,
provided a nonempty range ends inside the bitmap (an empty range yields the
empty slice unconditionally). -/
theorem pieceVals_eq_slice (hv : List Bool) (t tl : Nat) (h : t < tl → tl ≤ hv.length) :
    pieceVals hv t tl = (hv.drop t).take (tl - t) := by
  rcases Nat.lt_or_ge t tl with hlt | hge
  · have htl := h hlt
    apply List.ext_getElem
    · simp [pieceVals_length, List.length_take, List.length_drop]
      omega
    · intro i h1 h2
      rw [pieceVals_length] at h1
      simp only [pieceVals, pyRange, List.map_map]
      rw [List.getElem_map]
      rw [List.getElem_take, List.getElem_drop]
      simp only [Function.comp, List.getElem_range]
      rw [List.getD_eq_getElem hv false (by omega)]
  · have h0 : tl - t = 0 := by omega
    have h0' : (List.range (tl - t)) = [] := by rw [h0]; rfl
    simp [pieceVals, pyRange, h0, h0']

/-- Characterization of the pure-statistics branch with a present range
list: the snapshot (when construction succeeds) stores the concatenated
per-range values, every nonempty range ends inside the bitmap, and
status/progress are either upgraded by the all-complete flag or taken from
`frac`. -/
theorem mkDownloadState_stats_ranges (download : Nat) (progress : ℚ) (st : Stats)
    (rs : List (Nat × Nat)) (lm : Option (List (ℚ × String))) (ds : DownloadState)
    (h : mkDownloadState download none none progress (some st) (some rs) lm = some ds) :
    ds.haveslice = flatVals st.statsobj.haveBits rs ∧
    ds.stats = some st ∧ ds.error = none ∧
    (∀ r ∈ rs, r.1 < r.2 → r.2 ≤ st.statsobj.haveBits.length) ∧
    ((flatVals st.statsobj.haveBits rs).all id = true →
        ds.status = some DLStatus.SEEDING ∧ ds.progress = 1) ∧
    ((flatVals st.statsobj.haveBits rs).all id = false →
        ds.status = some (if st.frac = 1 then DLStatus.SEEDING else DLStatus.DOWNLOADING) ∧
        ds.progress = st.frac) := by
  simp only [mkDownloadState, Option.isSome_none, Bool.false_eq_true, if_false] at h
  split at h
  · exact absurd h (by simp)
  · rename_i hs ha hp
    obtain ⟨g1, g2, g3⟩ := projectHave_sound _ _ _ _ hp
    split at h
    · rename_i hha
      obtain rfl := Option.some.inj h
      subst g1
      rw [hha] at g2
      refine ⟨rfl, rfl, rfl, g3, fun _ => ⟨rfl, rfl⟩, fun hfalse => ?_⟩
      rw [← g2] at hfalse
      exact absurd hfalse (by simp)
    · rename_i hha
      obtain rfl := Option.some.inj h
      subst g1
      have hfa : ha = false := by
        cases ha
        · rfl
        · exact absurd rfl hha
      rw [hfa] at g2
      refine ⟨rfl, rfl, rfl, g3, fun htrue => ?_, fun _ => ⟨rfl, rfl⟩⟩
      rw [← g2] at htrue
      exact absurd htrue (by simp)

/-- Characterization of the pure-statistics branch without ranges: the
snapshot passes the bitmap through unchanged and derives status/progress
from `frac` alone (the all-complete upgrade never runs here). -/
theorem mkDownloadState_stats_noranges (download : Nat) (progress : ℚ) (st : Stats)
    (lm : Option (List (ℚ × String))) (ds : DownloadState)
    (h : mkDownloadState download none none progress (some st) none lm = some ds) :
    ds = { download, filepieceranges := none, logmsgs := lm, error := none,
           progress := st.frac,
           status := some (if st.frac = 1 then DLStatus.SEEDING else DLStatus.DOWNLOADING),
           stats := some st, haveslice := st.statsobj.haveBits } := by
  simp only [mkDownloadState, Option.isSome_none, Bool.false_eq_true, if_false] at h
  exact (Option.some.inj h).symm

/-! ### Claims -/

/-- Convenience builder for concrete statistics bundles in witnesses. -/
def mkStats (hv : List Bool) (frac : ℚ) : Stats :=
  { frac, up := 0, down := 0,
    statsobj := { haveBits := hv, numSeeds := 0, numPeers := 0 },
    spew := none, vod_prebuf_frac := 0, vod_playable := false, vod_playable_after := 0 }

/-- C1 counterexample: an error supplied WITHOUT a statistics bundle keeps
the caller-supplied progress (here 1/2), so progress is not forced to 0.0
as the claim states (status is still STOPPED_ON_ERROR). -/
theorem c1_counterexample :
    (mkDownloadState 0 (some DLStatus.STOPPED) (some "tracker timeout") 1 none none
        none).map (fun ds => (ds.status, ds.progress)) =
      some (some DLStatus.STOPPED_ON_ERROR, 1) ∧ (1 : ℚ) ≠ 0 := by
  decide

/-- C1 (amended): whenever an error value is supplied, the snapshot's status
is STOPPED_ON_ERROR and the error is stored verbatim; progress is 0.0 when a
statistics bundle is also supplied, while without statistics the
caller-supplied progress value is kept. -/
theorem c1_error_forces_stopped_on_error (download : Nat) (status : Option DLStatus)
    (e : String) (progress : ℚ) (stats : Option Stats) (fpr : Option (List (Nat × Nat)))
    (lm : Option (List (ℚ × String))) (ds : DownloadState)
    (h : mkDownloadState download status (some e) progress stats fpr lm = some ds) :
    ds.status = some DLStatus.STOPPED_ON_ERROR ∧ ds.error = some e ∧
    (stats.isSome = true → ds.progress = 0) ∧ (stats = none → ds.progress = progress) := by
  cases stats with
  | none =>
      simp only [mkDownloadState, Option.isSome_some, if_true] at h
      obtain rfl := Option.some.inj h
      exact ⟨rfl, rfl, fun hc => absurd hc (by simp), fun _ => rfl⟩
  | some st =>
      simp only [mkDownloadState, Option.isSome_some, if_true] at h
      obtain rfl := Option.some.inj h
      exact ⟨rfl, rfl, fun _ => rfl, fun hc => Option.noConfusion hc⟩

theorem c1_witness :
    ∃ ds, mkDownloadState 7 (some DLStatus.QUEUED) (some "disk full") 3
        (some (mkStats [false] 2)) none none = some ds ∧
      ds.status = some DLStatus.STOPPED_ON_ERROR ∧ ds.error = some "disk full" ∧
      ds.progress = 0 := by
  refine ⟨_, rfl, ?_⟩
  have h := c1_error_forces_stopped_on_error 7 (some DLStatus.QUEUED) "disk full" 3
    (some (mkStats [false] 2)) none none _ rfl
  exact ⟨h.1, h.2.1, h.2.2.1 rfl⟩

def statsC2 : Stats := mkStats [true] 0

/-- C2 counterexample: with `selected_ranges = None` the projection is the
full bitmap `[true]`, every entry of which is true, yet the snapshot keeps
status DOWNLOADING and progress 0 computed from `frac = 0`: the
full-completion override does not run in the `None`-ranges case. -/
theorem c2_counterexample :
    (mkDownloadState 0 none none 0 (some statsC2) none none).map
        (fun ds => (ds.haveslice, ds.status, ds.progress)) =
      some ([true], some DLStatus.DOWNLOADING, 0) ∧
    ([true] : List Bool).all id = true ∧
    some DLStatus.DOWNLOADING ≠ some DLStatus.SEEDING := by
  decide

/-- C2 (amended): for a snapshot constructed from a statistics bundle with
no error, no status override and a PRESENT list of ranges, if every entry
of the projected completion sequence is true then status is SEEDING and
progress is 1.0, overriding whatever `frac` gave; with
`selected_ranges = None` the override does not apply and status/progress
come solely from `frac`. -/
theorem c2_full_projection_forces_seeding (download : Nat) (progress : ℚ) (st : Stats)
    (rs : List (Nat × Nat)) (lm : Option (List (ℚ × String))) (ds : DownloadState)
    (h : mkDownloadState download none none progress (some st) (some rs) lm = some ds)
    (hall : ds.haveslice.all id = true) :
    ds.status = some DLStatus.SEEDING ∧ ds.progress = 1 := by
  obtain ⟨g1, _, _, _, g5, _⟩ := mkDownloadState_stats_ranges download progress st rs lm ds h
  rw [g1] at hall
  exact g5 hall

def dsC2 : DownloadState :=
  { download := 0, filepieceranges := some [(0, 1)], logmsgs := none, error := none,
    progress := 1, status := some DLStatus.SEEDING, stats := some statsC2,
    haveslice := [true] }

theorem c2_witness : dsC2.status = some DLStatus.SEEDING ∧ dsC2.progress = 1 :=
  c2_full_projection_forces_seeding 0 0 statsC2 [(0, 1)] none dsC2 (by decide) (by decide)

/-- C3: for a snapshot constructed from a statistics bundle (no error, no
override), a present range list projects to the concatenation, in range
order, of the bitmap slices `[start, end)` of each range, and an absent
range list projects to the source bitmap itself. -/
theorem c3_projection_structure (download : Nat) (progress : ℚ) (st : Stats)
    (fpr : Option (List (Nat × Nat))) (lm : Option (List (ℚ × String))) (ds : DownloadState)
    (h : mkDownloadState download none none progress (some st) fpr lm = some ds) :
    (∀ rs, fpr = some rs →
        ds.haveslice =
          (rs.map (fun r => (st.statsobj.haveBits.drop r.1).take (r.2 - r.1))).flatten) ∧
    (fpr = none → ds.haveslice = st.statsobj.haveBits) := by
  constructor
  · rintro rs rfl
    obtain ⟨g1, _, _, g4, _, _⟩ := mkDownloadState_stats_ranges download progress st rs lm ds h
    rw [g1]
    unfold flatVals
    congr 1
    apply List.map_congr_left
    intro r hr
    exact pieceVals_eq_slice _ _ _ (g4 r hr)
  · rintro rfl
    rw [mkDownloadState_stats_noranges download progress st lm ds h]

def statsC3 : Stats := mkStats [true, false, true, false, true] 0

def dsC3 : DownloadState :=
  { download := 0, filepieceranges := some [(0, 2), (3, 4)], logmsgs := none, error := none,
    progress := 0, status := some DLStatus.DOWNLOADING, stats := some statsC3,
    haveslice := [true, false, false] }

theorem c3_witness :
    dsC3.haveslice =
      ([(0, 2), (3, 4)].map
        (fun r => (statsC3.statsobj.haveBits.drop r.1).take (r.2 - r.1))).flatten :=
  (c3_projection_structure 0 0 statsC3 (some [(0, 2), (3, 4)]) none dsC3 (by decide)).1
    [(0, 2), (3, 4)] rfl

/-- C4: for a snapshot constructed from a statistics bundle, the projected
completion sequence has length equal to the sum of the range widths when
ranges are present, and to the full bitmap length when ranges are absent. -/
theorem c4_projection_length (download : Nat) (progress : ℚ) (st : Stats)
    (fpr : Option (List (Nat × Nat))) (lm : Option (List (ℚ × String))) (ds : DownloadState)
    (h : mkDownloadState download none none progress (some st) fpr lm = some ds) :
    (∀ rs, fpr = some rs →
        ds.haveslice.length = (rs.map (fun r => r.2 - r.1)).sum) ∧
    (fpr = none → ds.haveslice.length = st.statsobj.haveBits.length) := by
  constructor
  · rintro rs rfl
    obtain ⟨g1, _⟩ := mkDownloadState_stats_ranges download progress st rs lm ds h
    rw [g1, flatVals_length]
  · rintro rfl
    rw [mkDownloadState_stats_noranges download progress st lm ds h]

def statsC4 : Stats := mkStats (List.replicate 12 true) 1

def dsC4 : DownloadState :=
  { download := 0, filepieceranges := some [(0, 5), (10, 12)], logmsgs := none, error := none,
    progress := 1, status := some DLStatus.SEEDING, stats := some statsC4,
    haveslice := [true, true, true, true, true, true, true] }

theorem c4_witness :
    dsC4.haveslice.length = ([(0, 5), (10, 12)].map (fun r => r.2 - r.1)).sum ∧
    dsC4.haveslice.length = 7 :=
  ⟨(c4_projection_length 0 1 statsC4 (some [(0, 5), (10, 12)]) none dsC4 (by decide)).1
      [(0, 5), (10, 12)] rfl,
    by decide⟩

/-- C5: for a pure statistics tick (statistics present, no error, no
override), as long as the full-completion projection override does not
apply (ranges absent, or the projected sequence not all-true), progress
equals `frac`, and status is SEEDING when `frac = 1.0` and DOWNLOADING when
`0.0 ≤ frac < 1.0`. -/
theorem c5_pure_stats_tick (download : Nat) (progress : ℚ) (st : Stats)
    (fpr : Option (List (Nat × Nat))) (lm : Option (List (ℚ × String))) (ds : DownloadState)
    (h : mkDownloadState download none none progress (some st) fpr lm = some ds)
    (hno : fpr = none ∨ ds.haveslice.all id = false) :
    (st.frac = 1 → ds.status = some DLStatus.SEEDING ∧ ds.progress = 1) ∧
    (0 ≤ st.frac → st.frac < 1 →
        ds.status = some DLStatus.DOWNLOADING ∧ ds.progress = st.frac) := by
  have hmain : ds.status =
      some (if st.frac = 1 then DLStatus.SEEDING else DLStatus.DOWNLOADING) ∧
      ds.progress = st.frac := by
    rcases hno with rfl | hfalse
    · rw [mkDownloadState_stats_noranges download progress st lm ds h]
      exact ⟨rfl, rfl⟩
    · cases fpr with
      | none =>
          rw [mkDownloadState_stats_noranges download progress st lm ds h]
          exact ⟨rfl, rfl⟩
      | some rs =>
          obtain ⟨g1, _, _, _, _, g6⟩ :=
            mkDownloadState_stats_ranges download progress st rs lm ds h
          rw [g1] at hfalse
          exact g6 hfalse
  obtain ⟨hstat, hprog⟩ := hmain
  constructor
  · intro h1
    rw [if_pos h1] at hstat
    rw [h1] at hprog
    exact ⟨hstat, hprog⟩
  · intro h1 h2
    rw [if_neg (by intro hc; rw [hc] at h2; exact absurd h2 (by norm_num))] at hstat
    exact ⟨hstat, hprog⟩

def statsC5 : Stats := mkStats [false, true] 0

def dsC5 : DownloadState :=
  { download := 0, filepieceranges := none, logmsgs := none, error := none,
    progress := 0, status := some DLStatus.DOWNLOADING, stats := some statsC5,
    haveslice := [false, true] }

theorem c5_witness :
    ((statsC5.frac = 1 → dsC5.status = some DLStatus.SEEDING ∧ dsC5.progress = 1) ∧
      (0 ≤ statsC5.frac → statsC5.frac < 1 →
        dsC5.status = some DLStatus.DOWNLOADING ∧ dsC5.progress = statsC5.frac)) ∧
    dsC5.status = some DLStatus.DOWNLOADING ∧ dsC5.progress = 0 := by
  have h := c5_pure_stats_tick 0 3 statsC5 none none dsC5 (by decide) (Or.inl rfl)
  exact ⟨h, h.2 (by norm_num [statsC5, mkStats]) (by norm_num [statsC5, mkStats])⟩

/-- C6: with no error and an explicit status override, the snapshot's
status is the override; progress is 0.0 for a WAITING4HASHCHECK override
with statistics, the statistics' `frac` for any other override with
statistics, and the caller-supplied progress when statistics are absent. -/
theorem c6_status_override (download : Nat) (s : DLStatus) (progress : ℚ)
    (stats : Option Stats) (fpr : Option (List (Nat × Nat)))
    (lm : Option (List (ℚ × String))) (ds : DownloadState)
    (h : mkDownloadState download (some s) none progress stats fpr lm = some ds) :
    ds.status = some s ∧
    (∀ st, stats = some st →
        ds.progress = if s = DLStatus.WAITING4HASHCHECK then 0 else st.frac) ∧
    (stats = none → ds.progress = progress) := by
  cases stats with
  | none =>
      simp only [mkDownloadState, Option.isSome_none, Bool.false_eq_true, if_false] at h
      obtain rfl := Option.some.inj h
      exact ⟨rfl, fun st hst => Option.noConfusion hst, fun _ => rfl⟩
  | some st =>
      simp only [mkDownloadState, Option.isSome_none, Bool.false_eq_true, if_false] at h
      obtain rfl := Option.some.inj h
      refine ⟨rfl, fun st' hst' => ?_, fun hc => Option.noConfusion hc⟩
      obtain rfl := Option.some.inj hst'
      rfl

theorem c6_witness :
    ∃ ds, mkDownloadState 0 (some DLStatus.HASHCHECKING) none 3
        (some (mkStats [false] 2)) none none = some ds ∧
      ds.status = some DLStatus.HASHCHECKING ∧ ds.progress = 2 := by
  refine ⟨_, rfl, ?_⟩
  have h := c6_status_override 0 DLStatus.HASHCHECKING 3 (some (mkStats [false] 2)) none
    none _ rfl
  refine ⟨h.1, ?_⟩
  have h2 := h.2.1 (mkStats [false] 2) rfl
  rw [if_neg (by decide)] at h2
  exact h2

def statsC7 : Stats := mkStats [true, true, true, true] 0

/-- C7 counterexample: a present range list containing the malformed range
(3, 1) with start > end does NOT make construction fail: the range is
silently treated as empty, and the snapshot is produced (here even upgraded
to SEEDING with progress 1.0 by the vacuous all-complete flag). -/
theorem c7_counterexample :
    (mkDownloadState 0 none none 0 (some statsC7) (some [(3, 1)]) none).map
        (fun ds => (ds.status, ds.progress, ds.haveslice)) =
      some (some DLStatus.SEEDING, 1, []) := by
  decide

/-- C7 (amended): construction from statistics with a present range list
fails fast (returns no snapshot, modelling the raised `IndexError`) when
some range with start < end has its end beyond the bitmap length; but a
range whose start exceeds its end is NOT a detected violation — it is
silently treated as empty. -/
theorem c7_out_of_bounds_fails (download : Nat) (progress : ℚ) (st : Stats)
    (rs : List (Nat × Nat)) (lm : Option (List (ℚ × String))) (t tl : Nat)
    (hmem : (t, tl) ∈ rs) (hlt : t < tl) (hoob : st.statsobj.haveBits.length < tl) :
    mkDownloadState download none none progress (some st) (some rs) lm = none := by
  cases hmk : mkDownloadState download none none progress (some st) (some rs) lm with
  | none => rfl
  | some ds =>
      obtain ⟨_, _, _, g4, _, _⟩ :=
        mkDownloadState_stats_ranges download progress st rs lm ds hmk
      have := g4 (t, tl) hmem hlt
      omega

theorem c7_witness :
    mkDownloadState 0 none none 0 (some (mkStats [true] 0)) (some [(0, 2)]) none = none :=
  c7_out_of_bounds_fails 0 0 (mkStats [true] 0) [(0, 2)] none 0 2 (by decide) (by decide)
    (by decide)

/-- C8: `get_num_seeds_peers` returns the unknown sentinel exactly when
statistics are absent or the peer list was withheld; with a present peer
list it returns the number of records with completed fraction 1.0 and the
number of remaining records, so an empty peer list yields (0, 0). -/
theorem c8_num_seeds_peers (ds : DownloadState) :
    (get_num_seeds_peers ds = none ↔
      ds.stats = none ∨ ∃ st, ds.stats = some st ∧ st.spew = none) ∧
    (∀ st spew, ds.stats = some st → st.spew = some spew →
        get_num_seeds_peers ds =
          some (spew.countP (fun i => decide (i.completed = 1)),
                spew.countP (fun i => decide (i.completed ≠ 1)))) ∧
    (∀ st, ds.stats = some st → st.spew = some [] →
        get_num_seeds_peers ds = some (0, 0)) := by
  refine ⟨?_, ?_, ?_⟩
  · cases hst : ds.stats with
    | none => simp [get_num_seeds_peers, hst]
    | some st =>
        cases hsp : st.spew with
        | none => simp [get_num_seeds_peers, hst, hsp]
        | some spew => simp [get_num_seeds_peers, hst, hsp]
  · intro st spew hst hsp
    simp only [get_num_seeds_peers, hst, hsp, Option.some.injEq, Prod.mk.injEq]
    constructor
    · simp [List.countP_eq_length_filter]
    · have hsum := List.length_eq_countP_add_countP (fun i : PeerInfo => decide (i.completed = 1)) spew
      have hfl : (spew.filter (fun i => decide (i.completed = 1))).length =
          spew.countP (fun i => decide (i.completed = 1)) := by
        simp [List.countP_eq_length_filter]
      have hnot : (spew.countP fun a => decide ¬decide (a.completed = 1) = true) =
          (spew.countP fun i => decide (i.completed ≠ 1)) := by
        apply List.countP_congr
        intro i _
        simp
      rw [hfl, ← hnot, hsum, Nat.add_sub_cancel_left]
  · intro st hst hsp
    simp [get_num_seeds_peers, hst, hsp]

def statsC8 : Stats :=
  { frac := 0, up := 0, down := 0,
    statsobj := { haveBits := [], numSeeds := 0, numPeers := 0 },
    spew := some [{ completed := 1 }, { completed := 0 }, { completed := 1 }],
    vod_prebuf_frac := 0, vod_playable := false, vod_playable_after := 0 }

def dsC8 : DownloadState :=
  { download := 0, filepieceranges := none, logmsgs := none, error := none,
    progress := 0, status := some DLStatus.DOWNLOADING, stats := some statsC8,
    haveslice := [] }

theorem c8_witness : get_num_seeds_peers dsC8 = some (2, 1) := by
  have h := (c8_num_seeds_peers dsC8).2.1 statsC8
    [{ completed := 1 }, { completed := 0 }, { completed := 1 }] rfl rfl
  rw [h]
  decide

/-- C9: `get_vod_playable_after` returns the sentinel `float(2 ** 31)` — a
positive "not computable yet" value, not 0 seconds — when statistics are
absent, and the bundle's `vod_playable_after` field unchanged when
statistics are present. -/
theorem c9_vod_playable_after (ds : DownloadState) :
    (ds.stats = none →
        get_vod_playable_after ds = 2 ^ 31 ∧ 0 < get_vod_playable_after ds) ∧
    (∀ st, ds.stats = some st → get_vod_playable_after ds = st.vod_playable_after) := by
  constructor
  · intro hst
    constructor
    · simp [get_vod_playable_after, hst]
    · norm_num [get_vod_playable_after, hst]
  · intro st hst
    simp [get_vod_playable_after, hst]

def dsC9 : DownloadState :=
  { download := 0, filepieceranges := none, logmsgs := none, error := some "e",
    progress := 0, status := some DLStatus.STOPPED_ON_ERROR, stats := none,
    haveslice := [] }

theorem c9_witness :
    get_vod_playable_after dsC9 = 2 ^ 31 ∧ 0 < get_vod_playable_after dsC9 :=
  (c9_vod_playable_after dsC9).1 rfl

/-- C10: a present but EMPTY range list projects to the empty sequence, the
all-complete flag fires vacuously, and the snapshot is unconditionally
SEEDING with progress 1.0, for every statistics bundle (any `frac`, any
bitmap). -/
theorem c10_empty_selected_ranges (download : Nat) (progress : ℚ) (st : Stats)
    (lm : Option (List (ℚ × String))) :
    mkDownloadState download none none progress (some st) (some []) lm =
      some { download, filepieceranges := some [], logmsgs := lm, error := none,
             progress := 1, status := some DLStatus.SEEDING, stats := some st,
             haveslice := [] } :=
  rfl

example : pyRange 3 1 = [] := by decide
example : pyRange 1 4 = [1, 2, 3] := by decide
example : projectHave [true, true, true, false, true] [(0, 3)] = some ([true, true, true], true) := by decide
example : projectHave [true, true, true, false, true] [(0, 5)] = some ([true, true, true, false, true], false) := by decide
example : projectHave [true, true] [(3, 1)] = some ([], true) := by decide
example : projectHave [true] [(0, 2)] = none := by decide
